import Mathlib

/-!
Verification development for the `earth_map` repository.

The repository ships a single build manifest (`conanfile.py`); the
specification additionally describes a tile streaming, caching and
LOD-selection engine whose implementation is not present in the
repository.  The first part of this file embeds the manifest
(`EarthMapConan`); the second part models the tile engine from the
specification's own words and proves the spec's testable properties
over that model.
-/

namespace EarthMap

/-! ### Part 1 — the Conan manifest, embedded from src/conanfile.py -/

/-- Operating systems distinguished by the manifest. -/
inductive OS
  | Windows
  | Linux
  | Macos
  | FreeBSD
deriving DecidableEq, Repr

/-- The subset of the Conan settings the manifest branches on. -/
structure ConanSettings where
  os : OS
deriving DecidableEq, Repr

/-- The option set of `EarthMapConan`.  `fPIC` is an `Option Bool`
because `rm_safe` can delete it from the option set (`none`). -/
structure ConanOptions where
  shared : Bool
  fPIC : Option Bool
  with_tests : Bool
  with_examples : Bool
  enable_opengl_debug : Bool
deriving DecidableEq, Repr

/-- The `options` class attribute of `EarthMapConan` (name, allowed values). -/
def optionsDecl : List (String × List Bool) :=
  [("shared", [true, false]),
   ("fPIC", [true, false]),
   ("with_tests", [true, false]),
   ("with_examples", [true, false]),
   ("enable_opengl_debug", [true, false])]

/-- The six configuration options §6 of the spec says the engine recognizes,
as canonical names. -/
def specConfigOptionNames : List String :=
  ["memory_budget_bytes",
   "target_screen_space_error_px",
   "max_zoom_level",
   "max_retry_count",
   "retry_backoff_base_interval",
   "worker_pool_size"]

/-- `EarthMapConan.config_options`: on Windows, `fPIC` is removed. -/
def config_options (s : ConanSettings) (o : ConanOptions) : ConanOptions :=
  if s.os = OS.Windows then { o with fPIC := none } else o

/-- `EarthMapConan.configure`: when building shared, `fPIC` is removed. -/
def configure (o : ConanOptions) : ConanOptions :=
  if o.shared = true then { o with fPIC := none } else o

/-- The unconditional requirements of `EarthMapConan.requirements`, in
source order. -/
def coreRequirements : List String :=
  ["glfw/3.3.8",
   "glew/2.2.0",
   "glm/1.0.1",
   "nlohmann_json/3.11.2",
   "pugixml/1.14",
   "libzip/1.10.1",
   "stb/cci.20230920",
   "spdlog/1.13.0",
   "libcurl/8.17.0"]

/-- `EarthMapConan.requirements`: core dependencies, then gtest/benchmark
when `with_tests`, then tracy when `enable_opengl_debug`. -/
def requirements (o : ConanOptions) : List String :=
  coreRequirements
    ++ (if o.with_tests = true then ["gtest/1.14.0", "benchmark/1.8.3"] else [])
    ++ (if o.enable_opengl_debug = true then ["tracy/0.10.0"] else [])

/-- The dependencies of `requirements` that are guarded by an option. -/
def conditionalDeps : List String :=
  ["gtest/1.14.0", "benchmark/1.8.3", "tracy/0.10.0"]

/-- `EarthMapConan.package` as the list of (glob pattern, destination
subdirectory) copies it performs. -/
def package (o : ConanOptions) : List (String × String) :=
  [("*.h", "include")]
    ++ (if o.shared = true then
          [("*.dll", "bin"), ("*.dylib*", "lib"), ("*.so*", "lib")]
        else
          [("*.a", "lib"), ("*.lib", "lib")])

end EarthMap

namespace EarthMap

/-! ### Part 2 — the tile engine, modelled from the spec

The spec (§1) states that no implementation source is present in the
repository; §§3-5 describe the intended engine precisely.  The
definitions below are modelled from those sections. -/

/-- Modelled from the spec: §3 TileKey, an immutable (level, row, column)
quadtree address. -/
structure TileKey where
  level : Nat
  row : Nat
  col : Nat
deriving DecidableEq, Repr

/-- Modelled from the spec: §3 invariant row, column < 2^level. -/
def TileKey.valid (k : TileKey) : Prop :=
  k.row < 2 ^ k.level ∧ k.col < 2 ^ k.level

instance (k : TileKey) : Decidable k.valid :=
  inferInstanceAs (Decidable (_ ∧ _))

/-- Modelled from the spec: §3 strict parent at level-1 via integer
division by 2. -/
def TileKey.parent (k : TileKey) : TileKey :=
  { level := k.level - 1, row := k.row / 2, col := k.col / 2 }

/-- Modelled from the spec: §4.1 the exactly 4 children at level+1, in the
deterministic order NW, NE, SW, SE (row 0 at the north edge). -/
def TileKey.children (k : TileKey) : List TileKey :=
  [{ level := k.level + 1, row := 2 * k.row, col := 2 * k.col },
   { level := k.level + 1, row := 2 * k.row, col := 2 * k.col + 1 },
   { level := k.level + 1, row := 2 * k.row + 1, col := 2 * k.col },
   { level := k.level + 1, row := 2 * k.row + 1, col := 2 * k.col + 1 }]

/-- The i-th entry of `children`. -/
def TileKey.child (k : TileKey) (i : Fin 4) : TileKey :=
  k.children.get (Fin.cast (by rfl) i)

/-- Modelled from the spec: a geographic rectangle. -/
structure GeoRect where
  west : ℚ
  east : ℚ
  south : ℚ
  north : ℚ
deriving DecidableEq, Repr

/-- Modelled from the spec: §4.1 `bounds(k)`, the geographic rectangle of a
tile obtained by linear subdivision of the level-0 extent
[-180, 180] x [-90, 90]. -/
def TileKey.bounds (k : TileKey) : GeoRect :=
  { west := 360 * (k.col : ℚ) / 2 ^ k.level - 180
    east := 360 * ((k.col : ℚ) + 1) / 2 ^ k.level - 180
    south := 90 - 180 * ((k.row : ℚ) + 1) / 2 ^ k.level
    north := 90 - 180 * (k.row : ℚ) / 2 ^ k.level }

/-- Point membership in a tile rectangle, half-open on the east and south
edges so that sibling tiles tile the plane without gaps or overlap. -/
def GeoRect.containsP (g : GeoRect) (p : ℚ × ℚ) : Prop :=
  g.west ≤ p.1 ∧ p.1 < g.east ∧ g.south < p.2 ∧ p.2 ≤ g.north

/-- One axis of a tile rectangle: cell i of 2^L equal half-open cells of
an extent of length E. -/
def seg (E : ℚ) (L i : Nat) (x : ℚ) : Prop :=
  E * i / 2 ^ L ≤ x ∧ x < E * (i + 1) / 2 ^ L

/-- Modelled from the spec: §3 the tile lifecycle states Requested,
Loading, Ready, Failed. -/
inductive TState
  | Requested
  | Loading
  | Ready
  | Failed
deriving DecidableEq, Repr

/-- Modelled from the spec: §3 TileRecord with key, state, payload
(present only when Ready, modelled as its decoded size), last-touched
frame counter, approximate byte size, and retry count. -/
structure TileRecord where
  key : TileKey
  state : TState
  payload : Option Nat
  lastTouched : Nat
  byteSize : Nat
  retryCount : Nat
deriving DecidableEq, Repr

/-- Modelled from the spec: §3 the Cache owns the full set of TileRecords. -/
abbrev TileStore := List TileRecord

/-- Modelled from the spec: §7 loader-side error kinds. -/
inductive ErrorKind
  | fetchFailure
  | decodeFailure
deriving DecidableEq, Repr

/-- Modelled from the spec: §4.2 a completion carries a decoded payload or
an error. -/
inductive CompletionResult
  | payload (bytes : Nat)
  | error (e : ErrorKind)
deriving DecidableEq, Repr

/-- Modelled from the spec: §4.2 `lookup(key)`; Absent is `none`. -/
def lookup (rs : TileStore) (k : TileKey) : Option TileRecord :=
  rs.find? (fun r => decide (r.key = k))

/-- Modelled from the spec: §4.2 `complete(key, payload | error)`:
transitions a Loading record for the key to Ready (payload attached) or to
Failed with retry count +1; any record not Loading is left untouched. -/
def complete (rs : TileStore) (k : TileKey) (res : CompletionResult) : TileStore :=
  rs.map fun r =>
    if r.key = k ∧ r.state = TState.Loading then
      match res with
      | CompletionResult.payload b =>
          { r with state := TState.Ready, payload := some b, byteSize := b }
      | CompletionResult.error _ =>
          { r with state := TState.Failed, payload := none,
                   retryCount := r.retryCount + 1 }
    else r

/-- Sum of the byte sizes of the Ready records. -/
def readyBytes (rs : TileStore) : Nat :=
  ((rs.filter (fun r => decide (r.state = TState.Ready))).map TileRecord.byteSize).sum

/-- Modelled from the spec: §4.2 a record may be evicted when it is Ready
and its key is not protected. -/
def evictable (prot : List TileKey) (r : TileRecord) : Bool :=
  decide (r.state = TState.Ready) && !(decide (r.key ∈ prot))

/-- Eviction preference between two candidates: least-recently-touched
first, ties broken by evicting the finer (deeper) tile first so coarse
tiles are evicted last. -/
def olderVictim (a b : TileRecord) : TileRecord :=
  if a.lastTouched < b.lastTouched then a
  else if b.lastTouched < a.lastTouched then b
  else if b.key.level ≤ a.key.level then a
  else b

/-- The eviction candidate chosen from a store, if any. -/
def pickVictim (prot : List TileKey) (rs : TileStore) : Option TileRecord :=
  match rs.filter (evictable prot) with
  | [] => none
  | v :: vs => some (vs.foldl olderVictim v)

/-- Remove the first occurrence of a record from the store. -/
def removeRecord : TileStore → TileRecord → TileStore
  | [], _ => []
  | r :: rs, v => if r = v then rs else r :: removeRecord rs v

/-- Eviction loop: remove victims while over budget and a victim exists.
The fuel argument only bounds the recursion; `evictToBudget` supplies
enough fuel to run to completion. -/
def evictLoop (budget : Nat) (prot : List TileKey) : Nat → TileStore → TileStore
  | 0, rs => rs
  | fuel + 1, rs =>
    if readyBytes rs ≤ budget then rs
    else
      match pickVictim prot rs with
      | none => rs
      | some v => evictLoop budget prot fuel (removeRecord rs v)

/-- Modelled from the spec: §4.2 `evict_to_budget(protected_set)`: removes
least-recently-touched Ready records not in the protected set until the
byte budget is satisfied; no-op if already within budget. -/
def evictToBudget (budget : Nat) (prot : List TileKey) (rs : TileStore) : TileStore :=
  evictLoop budget prot rs.length rs

/-- Whether the store holds a Ready record for the key. -/
def isReady (rs : TileStore) (k : TileKey) : Bool :=
  match lookup rs k with
  | some r => decide (r.state = TState.Ready)
  | none => false

/-- Modelled from the spec: §4.2 `touch(key, frame)` marks a Ready record
as used in the current frame. -/
def touch (rs : TileStore) (k : TileKey) (frame : Nat) : TileStore :=
  rs.map fun r =>
    if r.key = k ∧ r.state = TState.Ready then { r with lastTouched := frame } else r

/-- Modelled from the spec: §6 the six recognized configuration options. -/
structure Config where
  memoryBudgetBytes : Nat
  screenSpaceErrorPx : ℚ
  maxZoomLevel : Nat
  maxRetryCount : Nat
  backoffBaseInterval : Nat
  workerPoolSize : Nat
deriving DecidableEq, Repr

/-- Modelled from the spec: §3 the per-frame camera/frustum snapshot: the
visible geographic region and a projection scale (pixels per world
degree). -/
structure Camera where
  view : GeoRect
  pixelsPerDegree : ℚ
deriving DecidableEq, Repr

/-- Open-rectangle intersection test used for frustum culling. -/
def GeoRect.intersects (a b : GeoRect) : Bool :=
  decide (a.west < b.east) && decide (b.west < a.east) &&
    decide (a.south < b.north) && decide (b.south < a.north)

/-- Modelled from the spec: §4.4/§9 screen-space error estimate — the
tile's world-space edge length (360/2^level degrees) projected at the
camera's pixels-per-degree scale. -/
def screenSpaceError (cam : Camera) (k : TileKey) : ℚ :=
  cam.pixelsPerDegree * (360 / 2 ^ k.level)

/-- Modelled from the spec: §4.4 recursive LOD descent.  Prunes tiles
outside the frustum; stops (selects) when the error estimate meets the
threshold, the maximum level is reached, or the tile is permanently
unavailable; otherwise recurses into the 4 children.  Returns (rendered
desired set, ancestor-closure protected set). -/
def lodVisit (cfg : Config) (cam : Camera) (unavail : TileKey → Bool) :
    Nat → TileKey → List TileKey × List TileKey
  | 0, k => ([k], [k])
  | fuel + 1, k =>
    if cam.view.intersects k.bounds = false then ([], [])
    else if screenSpaceError cam k ≤ cfg.screenSpaceErrorPx
        ∨ cfg.maxZoomLevel ≤ k.level ∨ unavail k = true then
      ([k], [k])
    else
      let sub := k.children.map (lodVisit cfg cam unavail fuel)
      ((sub.map Prod.fst).flatten, k :: (sub.map Prod.snd).flatten)

/-- Modelled from the spec: §4.4 the LOD Selector run from the root tile. -/
def lodSelect (cfg : Config) (cam : Camera) (unavail : TileKey → Bool) :
    List TileKey × List TileKey :=
  lodVisit cfg cam unavail cfg.maxZoomLevel ⟨0, 0, 0⟩

/-- Modelled from the spec: §4.2 a Failed record past the retry cap is
permanently unavailable for the session. -/
def permanentlyUnavailable (cfg : Config) (r : TileRecord) : Bool :=
  decide (r.state = TState.Failed) && decide (cfg.maxRetryCount < r.retryCount)

/-- The per-key unavailability view the Tile Store surfaces to the LOD
Selector. -/
def unavailOf (cfg : Config) (rs : TileStore) : TileKey → Bool :=
  fun k =>
    match lookup rs k with
    | some r => permanentlyUnavailable cfg r
    | none => false

/-- Modelled from the spec: §4.2 exponential backoff keyed by retry count:
a Failed record may be retried once its backoff interval has elapsed. -/
def retryDue (cfg : Config) (frame : Nat) (r : TileRecord) : Bool :=
  decide (r.lastTouched + cfg.backoffBaseInterval * 2 ^ r.retryCount ≤ frame)

/-- Mark the record for a key as handed to the loader. -/
def setLoading (rs : TileStore) (k : TileKey) (frame : Nat) : TileStore :=
  rs.map fun r =>
    if r.key = k then { r with state := TState.Loading, lastTouched := frame } else r

/-- The record created when a key is first referenced and submitted. -/
def newRecord (k : TileKey) (frame : Nat) : TileRecord :=
  { key := k, state := TState.Loading, payload := none,
    lastTouched := frame, byteSize := 0, retryCount := 0 }

/-- Modelled from the spec: §4.5 step (2) for one desired key: touch it if
Ready; create-and-submit if absent; resubmit a Failed record only when its
retry count is within the cap and its backoff has elapsed; otherwise skip
(in-flight, or permanently failed). -/
def processKey (cfg : Config) (frame : Nat) (acc : TileStore × List TileKey)
    (k : TileKey) : TileStore × List TileKey :=
  if isReady acc.1 k = true then (touch acc.1 k frame, acc.2)
  else
    match lookup acc.1 k with
    | none => (newRecord k frame :: acc.1, acc.2 ++ [k])
    | some r =>
      if r.state = TState.Failed ∧ r.retryCount ≤ cfg.maxRetryCount
          ∧ retryDue cfg frame r = true then
        (setLoading acc.1 k frame, acc.2 ++ [k])
      else (acc.1, acc.2)

/-- Walk the strict ancestors of a key (fuel bounds the walk at the root)
and return the nearest one that is Ready. -/
def findReadyAncestor (rs : TileStore) : Nat → TileKey → Option TileKey
  | 0, _ => none
  | fuel + 1, k =>
    if isReady rs k.parent = true then some k.parent
    else findReadyAncestor rs fuel k.parent

/-- Modelled from the spec: §4.5 the nearest Ready strict ancestor of a
key, used for graceful degradation. -/
def nearestReadyAncestor (rs : TileStore) (k : TileKey) : Option TileKey :=
  findReadyAncestor rs k.level k

/-- Modelled from the spec: §4.5 step (3): each Ready desired key is
rendered; a non-Ready desired key is substituted by its nearest Ready
ancestor when one exists. -/
def renderListOf (rs : TileStore) (desired : List TileKey) : List TileKey :=
  desired.filterMap fun k =>
    if isReady rs k = true then some k else nearestReadyAncestor rs k

/-- The observable outcome of one Frame Scheduler pass. -/
structure FrameOutput where
  desired : List TileKey
  protectedKeys : List TileKey
  submissions : List TileKey
  renderKeys : List TileKey
  storeMid : TileStore
  storeAfter : TileStore
deriving Repr

/-- Modelled from the spec: §4.5 one frame: (1) LOD selection, (2) request
processing and loader submission, (3) render-list construction with
ancestor substitution, (4) eviction to budget with the protected set. -/
def scheduleFrame (cfg : Config) (cam : Camera) (frame : Nat) (rs : TileStore) :
    FrameOutput :=
  let sel := lodSelect cfg cam (unavailOf cfg rs)
  let step := sel.1.foldl (processKey cfg frame) (rs, [])
  { desired := sel.1
    protectedKeys := sel.2
    submissions := step.2
    renderKeys := renderListOf step.1 sel.1
    storeMid := step.1
    storeAfter := evictToBudget cfg.memoryBudgetBytes sel.2 step.1 }

/-- Modelled from the spec: §5 the events a session interleaves: frame
passes on the frame thread and loader completions. -/
inductive SessionEvent
  | frameEvent (cam : Camera)
  | completionEvent (k : TileKey) (res : CompletionResult)

/-- Run a session: frames advance the frame counter and produce outputs,
completions mutate the store through `complete`. -/
def runSession (cfg : Config) : TileStore → Nat → List SessionEvent →
    TileStore × List FrameOutput
  | rs, _, [] => (rs, [])
  | rs, fr, SessionEvent.frameEvent cam :: evs =>
    let out := scheduleFrame cfg cam fr rs
    let rest := runSession cfg out.storeAfter (fr + 1) evs
    (rest.1, out :: rest.2)
  | rs, fr, SessionEvent.completionEvent k res :: evs =>
    runSession cfg (complete rs k res) fr evs

/-- The key has a record, and every record for it is Failed past the
retry cap: the tile is permanently unavailable for the session. -/
def permUnavailKey (cfg : Config) (rs : TileStore) (k : TileKey) : Prop :=
  (∃ r ∈ rs, r.key = k) ∧
  ∀ r ∈ rs, r.key = k → r.state = TState.Failed ∧ cfg.maxRetryCount < r.retryCount

instance (cfg : Config) (rs : TileStore) (k : TileKey) :
    Decidable (permUnavailKey cfg rs k) :=
  inferInstanceAs (Decidable (_ ∧ _))

end EarthMap

namespace EarthMap

/-! ### Theorems about the manifest -/

/-- C1, counterexample: the manifest declares the option `shared`, which is
not one of the six engine-configuration options §6 of the spec lists, so
the declared option set is not the spec's six options. -/
theorem conan_options_not_spec_config_options :
    ((optionsDecl.map Prod.fst).contains "shared"
      && !(specConfigOptionNames.contains "shared")) = true := by
  decide

/-- C1, amended: the manifest declares exactly the options `shared`,
`fPIC`, `with_tests`, `with_examples`, `enable_opengl_debug`, and none of
the spec's six engine-configuration options is among them. -/
theorem conan_options_exactly_declared :
    optionsDecl.map Prod.fst =
      ["shared", "fPIC", "with_tests", "with_examples", "enable_opengl_debug"]
    ∧ specConfigOptionNames.all
        (fun s => !(optionsDecl.map Prod.fst).contains s) = true := by
  constructor
  · decide
  · decide

/-- C2: for every option configuration, `requirements` declares glfw, glew,
pugixml, libzip, stb, libcurl and spdlog unconditionally. -/
theorem requirements_include_core_libraries (o : ConanOptions) :
    "glfw/3.3.8" ∈ requirements o
    ∧ "glew/2.2.0" ∈ requirements o
    ∧ "pugixml/1.14" ∈ requirements o
    ∧ "libzip/1.10.1" ∈ requirements o
    ∧ "stb/cci.20230920" ∈ requirements o
    ∧ "libcurl/8.17.0" ∈ requirements o
    ∧ "spdlog/1.13.0" ∈ requirements o := by
  obtain ⟨sh, fp, wt, we, dbg⟩ := o
  cases wt <;> cases dbg <;> simp [requirements, coreRequirements]

/-- C8: after `config_options` and `configure` have both run, `fPIC` is
absent exactly when the OS is Windows or `shared` is true; otherwise it
retains its value. -/
theorem fPIC_removed_iff_windows_or_shared (s : ConanSettings) (o : ConanOptions) :
    (configure (config_options s o)).fPIC =
      (if s.os = OS.Windows ∨ o.shared = true then none else o.fPIC) := by
  unfold configure config_options
  by_cases hw : s.os = OS.Windows <;> by_cases hs : o.shared = true <;>
    simp [hw, hs]

/-- C9: `requirements` declares gtest and benchmark iff `with_tests`, and
tracy iff `enable_opengl_debug`; every other dependency declaration is the
same in all configurations. -/
theorem requirements_optional_deps_iff (o o' : ConanOptions) :
    ("gtest/1.14.0" ∈ requirements o ↔ o.with_tests = true)
    ∧ ("benchmark/1.8.3" ∈ requirements o ↔ o.with_tests = true)
    ∧ ("tracy/0.10.0" ∈ requirements o ↔ o.enable_opengl_debug = true)
    ∧ (requirements o).filter (fun d => !conditionalDeps.contains d) =
        (requirements o').filter (fun d => !conditionalDeps.contains d) := by
  obtain ⟨sh, fp, wt, we, dbg⟩ := o
  obtain ⟨sh', fp', wt', we', dbg'⟩ := o'
  cases wt <;> cases dbg <;> cases wt' <;> cases dbg' <;>
    simp [requirements, coreRequirements, conditionalDeps]

/-- C10: `package` always copies headers, and copies the shared-library
patterns exactly when `shared` is true and the static-archive patterns
exactly when it is false. -/
theorem package_copies_exactly_one_family (o : ConanOptions) :
    ("*.h", "include") ∈ package o
    ∧ (("*.dll", "bin") ∈ package o ↔ o.shared = true)
    ∧ (("*.dylib*", "lib") ∈ package o ↔ o.shared = true)
    ∧ (("*.so*", "lib") ∈ package o ↔ o.shared = true)
    ∧ (("*.a", "lib") ∈ package o ↔ o.shared = false)
    ∧ (("*.lib", "lib") ∈ package o ↔ o.shared = false) := by
  obtain ⟨sh, fp, wt, we, dbg⟩ := o
  cases sh <;> simp [package]

/-! ### Theorems about the quadtree index -/

/-- Splitting one axis cell of level L into its two level L+1 halves. -/
theorem seg_split (E : ℚ) (hE : 0 < E) (L i : Nat) (x : ℚ) :
    seg E L i x ↔ (seg E (L + 1) (2 * i) x ∨ seg E (L + 1) (2 * i + 1) x) := by
  have hm : (0 : ℚ) < 2 ^ (L + 1) := by positivity
  have hgap : (0 : ℚ) < E / 2 ^ (L + 1) := div_pos hE hm
  have a1 : E * (2 * (i : ℚ)) / 2 ^ (L + 1) = E * (i : ℚ) / 2 ^ L := by
    field_simp
    ring
  have a2 : E * (2 * (i : ℚ) + 1) / 2 ^ (L + 1) =
      E * (i : ℚ) / 2 ^ L + E / 2 ^ (L + 1) := by
    field_simp
    ring
  have a3 : E * (2 * (i : ℚ) + 1 + 1) / 2 ^ (L + 1) = E * ((i : ℚ) + 1) / 2 ^ L := by
    field_simp
    ring
  have a4 : E * ((i : ℚ) + 1) / 2 ^ L =
      E * (i : ℚ) / 2 ^ L + 2 * (E / 2 ^ (L + 1)) := by
    field_simp
    ring
  unfold seg
  push_cast
  constructor
  · rintro ⟨ha, hb⟩
    by_cases hx : x < E * (2 * (i : ℚ) + 1) / 2 ^ (L + 1)
    · exact Or.inl ⟨by linarith, by linarith⟩
    · exact Or.inr ⟨by linarith, by linarith⟩
  · rintro (⟨ha, hb⟩ | ⟨ha, hb⟩)
    · exact ⟨by linarith, by linarith⟩
    · exact ⟨by linarith, by linarith⟩

/-- Distinct cells of the same axis level are disjoint: a point lies in at
most one. -/
theorem seg_inj {E : ℚ} (hE : 0 < E) {M a b : Nat} {x : ℚ}
    (ha : seg E M a x) (hb : seg E M b x) : a = b := by
  have hM : (0 : ℚ) < 2 ^ M := by positivity
  have cross : ∀ u v : Nat, seg E M u x → seg E M v x → v < u + 1 := by
    intro u v hu hv
    have hlt : E * (v : ℚ) / 2 ^ M < E * ((u : ℚ) + 1) / 2 ^ M :=
      lt_of_le_of_lt hv.1 hu.2
    have h2 : E * (v : ℚ) < E * ((u : ℚ) + 1) :=
      lt_of_mul_lt_mul_right ((div_lt_div_iff₀ hM hM).mp hlt) hM.le
    have h3 : (v : ℚ) < (u : ℚ) + 1 := lt_of_mul_lt_mul_left h2 hE.le
    exact_mod_cast h3
  have h1 := cross a b ha hb
  have h2 := cross b a hb ha
  omega

/-- Membership in a tile rectangle decomposes into the two axes. -/
theorem mem_bounds_iff (k : TileKey) (p : ℚ × ℚ) :
    (k.bounds).containsP p ↔
      seg 360 k.level k.col (p.1 + 180) ∧ seg 180 k.level k.row (90 - p.2) := by
  unfold TileKey.bounds GeoRect.containsP seg
  push_cast
  constructor
  · rintro ⟨h1, h2, h3, h4⟩
    exact ⟨⟨by linarith, by linarith⟩, ⟨by linarith, by linarith⟩⟩
  · rintro ⟨⟨h1, h2⟩, ⟨h3, h4⟩⟩
    exact ⟨by linarith, by linarith, by linarith, by linarith⟩

/-- Closed form of the i-th child key. -/
theorem child_arith (k : TileKey) (i : Fin 4) :
    k.child i = ⟨k.level + 1, 2 * k.row + i.val / 2, 2 * k.col + i.val % 2⟩ := by
  fin_cases i <;> rfl

/-- Membership in the i-th child rectangle, decomposed into the two axes. -/
theorem child_mem_iff (k : TileKey) (i : Fin 4) (p : ℚ × ℚ) :
    ((k.child i).bounds).containsP p ↔
      seg 360 (k.level + 1) (2 * k.col + i.val % 2) (p.1 + 180) ∧
      seg 180 (k.level + 1) (2 * k.row + i.val / 2) (90 - p.2) := by
  rw [child_arith]
  exact mem_bounds_iff _ p

/-- C3: for every valid TileKey, `parent (children k)[i] = k` for every
index i in 0..3, and the bounds of the four children partition the bounds
of k exactly: every point of the parent rectangle lies in exactly one
child rectangle, and every point of a child rectangle lies in the parent
rectangle. -/
theorem children_parent_partition (k : TileKey) (hk : k.valid) :
    (∀ i : Fin 4, (k.child i).parent = k) ∧
    (∀ p : ℚ × ℚ, (k.bounds).containsP p ↔
      ∃! i : Fin 4, ((k.child i).bounds).containsP p) := by
  obtain ⟨L, r, c⟩ := k
  have h360 : (0 : ℚ) < 360 := by norm_num
  have h180 : (0 : ℚ) < 180 := by norm_num
  constructor
  · intro i
    have h4 := i.isLt
    rw [child_arith]
    show TileKey.mk (L + 1 - 1) ((2 * r + i.val / 2) / 2) ((2 * c + i.val % 2) / 2) =
      TileKey.mk L r c
    simp only [TileKey.mk.injEq]
    omega
  · intro p
    have huniq : ∀ i j : Fin 4,
        ((TileKey.child ⟨L, r, c⟩ i).bounds).containsP p →
        ((TileKey.child ⟨L, r, c⟩ j).bounds).containsP p → i = j := by
      intro i j hi hj
      rw [child_mem_iff] at hi hj
      have hcol := seg_inj h360 hi.1 hj.1
      have hrow := seg_inj h180 hi.2 hj.2
      have h4i := i.isLt
      have h4j := j.isLt
      apply Fin.ext
      simp only at hcol hrow
      omega
    rw [mem_bounds_iff]
    simp only
    constructor
    · rintro ⟨hx, hy⟩
      rw [seg_split 360 h360] at hx
      rw [seg_split 180 h180] at hy
      rcases hx with hx | hx <;> rcases hy with hy | hy
      · have hmem : ((TileKey.child ⟨L, r, c⟩ ⟨0, by omega⟩).bounds).containsP p := by
          rw [child_mem_iff]
          exact ⟨hx, hy⟩
        exact ⟨⟨0, by omega⟩, hmem, fun j hj => huniq j ⟨0, by omega⟩ hj hmem⟩
      · have hmem : ((TileKey.child ⟨L, r, c⟩ ⟨2, by omega⟩).bounds).containsP p := by
          rw [child_mem_iff]
          exact ⟨hx, hy⟩
        exact ⟨⟨2, by omega⟩, hmem, fun j hj => huniq j ⟨2, by omega⟩ hj hmem⟩
      · have hmem : ((TileKey.child ⟨L, r, c⟩ ⟨1, by omega⟩).bounds).containsP p := by
          rw [child_mem_iff]
          exact ⟨hx, hy⟩
        exact ⟨⟨1, by omega⟩, hmem, fun j hj => huniq j ⟨1, by omega⟩ hj hmem⟩
      · have hmem : ((TileKey.child ⟨L, r, c⟩ ⟨3, by omega⟩).bounds).containsP p := by
          rw [child_mem_iff]
          exact ⟨hx, hy⟩
        exact ⟨⟨3, by omega⟩, hmem, fun j hj => huniq j ⟨3, by omega⟩ hj hmem⟩
    · rintro ⟨i, hi, _⟩
      rw [child_mem_iff] at hi
      obtain ⟨hx, hy⟩ := hi
      have h4 := i.isLt
      constructor
      · rw [seg_split 360 h360]
        rcases Nat.mod_two_eq_zero_or_one i.val with h2 | h2
        · left
          rw [h2] at hx
          exact hx
        · right
          rw [h2] at hx
          exact hx
      · rw [seg_split 180 h180]
        have hd : i.val / 2 = 0 ∨ i.val / 2 = 1 := by omega
        rcases hd with h2 | h2
        · left
          rw [h2] at hy
          exact hy
        · right
          rw [h2] at hy
          exact hy

/-- C3 witness: the parent/child and partition properties evaluated at the
concrete valid key (level 1, row 0, col 1). -/
theorem children_parent_partition_witness :
    TileKey.valid ⟨1, 0, 1⟩ ∧
    ((∀ i : Fin 4, ((⟨1, 0, 1⟩ : TileKey).child i).parent = ⟨1, 0, 1⟩) ∧
     (∀ p : ℚ × ℚ, ((⟨1, 0, 1⟩ : TileKey).bounds).containsP p ↔
       ∃! i : Fin 4, (((⟨1, 0, 1⟩ : TileKey).child i).bounds).containsP p)) :=
  ⟨by decide, children_parent_partition ⟨1, 0, 1⟩ (by decide)⟩

/-! ### Theorems about the Tile Store and eviction -/

theorem olderVictim_or (a b : TileRecord) : olderVictim a b = a ∨ olderVictim a b = b := by
  unfold olderVictim
  split
  · exact Or.inl rfl
  split
  · exact Or.inr rfl
  split
  · exact Or.inl rfl
  · exact Or.inr rfl

theorem foldl_olderVictim_mem (vs : List TileRecord) (v : TileRecord) :
    vs.foldl olderVictim v ∈ v :: vs := by
  induction vs generalizing v with
  | nil => simp
  | cons x xs ih =>
    simp only [List.foldl_cons]
    rcases List.mem_cons.mp (ih (olderVictim v x)) with h | h
    · rw [h]
      rcases olderVictim_or v x with h2 | h2 <;> rw [h2] <;> simp
    · exact List.mem_cons_of_mem _ (List.mem_cons_of_mem _ h)

theorem pickVictim_mem {prot : List TileKey} {rs : TileStore} {v : TileRecord}
    (h : pickVictim prot rs = some v) : v ∈ rs := by
  unfold pickVictim at h
  cases hf : List.filter (evictable prot) rs with
  | nil => rw [hf] at h; exact Option.noConfusion h
  | cons w ws =>
    rw [hf] at h
    have hv : v = ws.foldl olderVictim w := (Option.some.inj h).symm
    have hmem : v ∈ w :: ws := hv ▸ foldl_olderVictim_mem ws w
    rw [← hf] at hmem
    exact List.mem_of_mem_filter hmem

theorem pickVictim_evictable {prot : List TileKey} {rs : TileStore} {v : TileRecord}
    (h : pickVictim prot rs = some v) : evictable prot v = true := by
  unfold pickVictim at h
  cases hf : List.filter (evictable prot) rs with
  | nil => rw [hf] at h; exact Option.noConfusion h
  | cons w ws =>
    rw [hf] at h
    have hv : v = ws.foldl olderVictim w := (Option.some.inj h).symm
    have hmem : v ∈ w :: ws := hv ▸ foldl_olderVictim_mem ws w
    rw [← hf] at hmem
    exact List.of_mem_filter hmem

theorem pickVictim_none {prot : List TileKey} {rs : TileStore}
    (h : pickVictim prot rs = none) :
    ∀ r ∈ rs, evictable prot r = false := by
  intro r hr
  by_contra hne
  have htrue : evictable prot r = true := by
    revert hne
    cases evictable prot r <;> simp
  have hmem : r ∈ rs.filter (evictable prot) := List.mem_filter.mpr ⟨hr, htrue⟩
  unfold pickVictim at h
  cases hf : List.filter (evictable prot) rs with
  | nil => rw [hf] at hmem; exact absurd hmem (List.not_mem_nil r)
  | cons w ws => rw [hf] at h; exact Option.noConfusion h

theorem evictable_ready {prot : List TileKey} {v : TileRecord}
    (h : evictable prot v = true) : v.state = TState.Ready := by
  simp [evictable] at h
  exact h.1

theorem removeRecord_subset {rs : TileStore} {v r : TileRecord}
    (h : r ∈ removeRecord rs v) : r ∈ rs := by
  induction rs with
  | nil => exact absurd h (List.not_mem_nil r)
  | cons x xs ih =>
    by_cases hx : x = v
    · simp only [removeRecord, if_pos hx] at h
      exact List.mem_cons_of_mem x h
    · simp only [removeRecord, if_neg hx] at h
      rcases List.mem_cons.mp h with h1 | h1
      · exact h1 ▸ List.mem_cons_self x xs
      · exact List.mem_cons_of_mem x (ih h1)

theorem mem_removeRecord_of_ne {rs : TileStore} {v r : TileRecord}
    (hmem : r ∈ rs) (hne : r ≠ v) : r ∈ removeRecord rs v := by
  induction rs with
  | nil => exact absurd hmem (List.not_mem_nil r)
  | cons x xs ih =>
    by_cases hx : x = v
    · simp only [removeRecord, if_pos hx]
      rcases List.mem_cons.mp hmem with h1 | h1
      · exact absurd (h1.trans hx) hne
      · exact h1
    · simp only [removeRecord, if_neg hx]
      rcases List.mem_cons.mp hmem with h1 | h1
      · exact h1 ▸ List.mem_cons_self x _
      · exact List.mem_cons_of_mem x (ih h1)

theorem length_removeRecord_of_mem {rs : TileStore} {v : TileRecord}
    (h : v ∈ rs) : (removeRecord rs v).length + 1 = rs.length := by
  induction rs with
  | nil => exact absurd h (List.not_mem_nil v)
  | cons x xs ih =>
    by_cases hx : x = v
    · simp [removeRecord, if_pos hx]
    · simp only [removeRecord, if_neg hx, List.length_cons]
      have hxs : v ∈ xs := by
        rcases List.mem_cons.mp h with h1 | h1
        · exact absurd h1.symm hx
        · exact h1
      rw [← ih hxs]

theorem evictLoop_budget (budget : Nat) (prot : List TileKey) :
    ∀ fuel rs, rs.length ≤ fuel →
      readyBytes (evictLoop budget prot fuel rs) ≤ budget ∨
      ∀ r ∈ evictLoop budget prot fuel rs, r.state = TState.Ready → r.key ∈ prot := by
  intro fuel
  induction fuel with
  | zero =>
    intro rs hlen
    have hnil : rs = [] := List.length_eq_zero.mp (Nat.le_zero.mp hlen)
    subst hnil
    left
    simp [evictLoop, readyBytes]
  | succ n ih =>
    intro rs hlen
    by_cases hb : readyBytes rs ≤ budget
    · left
      simp only [evictLoop, if_pos hb]
      exact hb
    · simp only [evictLoop, if_neg hb]
      cases hv : pickVictim prot rs with
      | none =>
        right
        intro r hr hready
        have hev := pickVictim_none hv r hr
        simp [evictable, hready] at hev
        exact hev
      | some v =>
        have hvm := pickVictim_mem hv
        have hlen2 : (removeRecord rs v).length ≤ n := by
          have := length_removeRecord_of_mem hvm
          omega
        exact ih (removeRecord rs v) hlen2

theorem evictLoop_keeps_not_ready (budget : Nat) (prot : List TileKey) :
    ∀ fuel rs (r : TileRecord), r ∈ rs → r.state ≠ TState.Ready →
      r ∈ evictLoop budget prot fuel rs := by
  intro fuel
  induction fuel with
  | zero =>
    intro rs r hr _
    simpa [evictLoop] using hr
  | succ n ih =>
    intro rs r hr hnr
    by_cases hb : readyBytes rs ≤ budget
    · simpa [evictLoop, if_pos hb] using hr
    · simp only [evictLoop, if_neg hb]
      cases hv : pickVictim prot rs with
      | none => exact hr
      | some v =>
        have hready := evictable_ready (pickVictim_evictable hv)
        have hne : r ≠ v := fun he => hnr (he ▸ hready)
        exact ih (removeRecord rs v) r (mem_removeRecord_of_ne hr hne) hnr

theorem evictLoop_subset (budget : Nat) (prot : List TileKey) :
    ∀ fuel rs (r : TileRecord), r ∈ evictLoop budget prot fuel rs → r ∈ rs := by
  intro fuel
  induction fuel with
  | zero =>
    intro rs r hr
    simpa [evictLoop] using hr
  | succ n ih =>
    intro rs r hr
    by_cases hb : readyBytes rs ≤ budget
    · simpa [evictLoop, if_pos hb] using hr
    · simp only [evictLoop, if_neg hb] at hr
      cases hv : pickVictim prot rs with
      | none =>
        rw [hv] at hr
        exact hr
      | some v =>
        rw [hv] at hr
        exact removeRecord_subset (ih (removeRecord rs v) r hr)

/-- C4: after any `evict_to_budget` call, the total byte size of Ready
records is at most the budget, unless every remaining Ready record is in
the protected set. -/
theorem evictToBudget_budget_invariant (budget : Nat) (prot : List TileKey)
    (rs : TileStore) :
    readyBytes (evictToBudget budget prot rs) ≤ budget ∨
    ∀ r ∈ evictToBudget budget prot rs, r.state = TState.Ready → r.key ∈ prot :=
  evictLoop_budget budget prot rs.length rs (le_refl _)

/-- C5: `complete` for a key with no record in the Loading state (for
example an absent or already-evicted record) leaves the store unchanged. -/
theorem complete_non_loading_noop (rs : TileStore) (k : TileKey)
    (res : CompletionResult)
    (h : ∀ r ∈ rs, r.key = k → r.state ≠ TState.Loading) :
    complete rs k res = rs := by
  induction rs with
  | nil => rfl
  | cons x xs ih =>
    have hx : ¬(x.key = k ∧ x.state = TState.Loading) := fun hc =>
      h x (List.mem_cons_self x xs) hc.1 hc.2
    have hxs : ∀ r ∈ xs, r.key = k → r.state ≠ TState.Loading := fun r hr =>
      h r (List.mem_cons_of_mem x hr)
    calc complete (x :: xs) k res
        = x :: complete xs k res := by
          simp only [complete, List.map_cons, if_neg hx]
      _ = x :: xs := by rw [ih hxs]

/-- C5 witness: completing a key whose only record is Ready (not Loading)
is a no-op on a concrete store. -/
theorem complete_non_loading_noop_witness :
    (∀ r ∈ ([⟨⟨2, 1, 1⟩, TState.Ready, some 10, 5, 10, 0⟩] : TileStore),
        r.key = ⟨3, 0, 0⟩ → r.state ≠ TState.Loading) ∧
    complete [⟨⟨2, 1, 1⟩, TState.Ready, some 10, 5, 10, 0⟩] ⟨3, 0, 0⟩
        (CompletionResult.payload 7) =
      [⟨⟨2, 1, 1⟩, TState.Ready, some 10, 5, 10, 0⟩] :=
  ⟨by decide, complete_non_loading_noop _ _ _ (by decide)⟩

/-! ### Theorems about the LOD Selector -/

/-- C6: the LOD Selector is deterministic — two runs on the same
camera/frustum snapshot and the same availability view produce the same
desired and protected sets. -/
theorem lodSelect_deterministic (cfg : Config) (cam1 cam2 : Camera)
    (u1 u2 : TileKey → Bool) (hc : cam1 = cam2) (hu : u1 = u2) :
    lodSelect cfg cam1 u1 = lodSelect cfg cam2 u2 := by
  subst hc
  subst hu
  rfl

/-- C6 witness: determinism instantiated at a concrete configuration,
camera and availability view. -/
theorem lodSelect_deterministic_witness :
    (⟨⟨-180, 180, -90, 90⟩, 2⟩ : Camera) = ⟨⟨-180, 180, -90, 90⟩, 2⟩ ∧
    (fun _ : TileKey => false) = (fun _ : TileKey => false) ∧
    lodSelect ⟨1000, 1, 3, 3, 1, 4⟩ ⟨⟨-180, 180, -90, 90⟩, 2⟩ (fun _ => false) =
      lodSelect ⟨1000, 1, 3, 3, 1, 4⟩ ⟨⟨-180, 180, -90, 90⟩, 2⟩ (fun _ => false) :=
  ⟨rfl, rfl, lodSelect_deterministic _ _ _ _ _ rfl rfl⟩

/-! ### Theorems about the Frame Scheduler and permanently failed tiles -/

theorem lookup_eq_none_iff {rs : TileStore} {k : TileKey} :
    lookup rs k = none ↔ ∀ r ∈ rs, r.key ≠ k := by
  unfold lookup
  rw [List.find?_eq_none]
  simp

theorem lookup_some_mem {rs : TileStore} {k : TileKey} {r : TileRecord}
    (h : lookup rs k = some r) : r ∈ rs ∧ r.key = k := by
  unfold lookup at h
  refine ⟨List.mem_of_find?_eq_some h, ?_⟩
  have := List.find?_some h
  simpa using this

theorem permUnavail_map {cfg : Config} {key : TileKey} (rs : TileStore)
    (f : TileRecord → TileRecord)
    (hkey : ∀ r, (f r).key = r.key)
    (hfix : ∀ r, r.key = key → r.state = TState.Failed →
      cfg.maxRetryCount < r.retryCount → f r = r)
    (h : permUnavailKey cfg rs key) : permUnavailKey cfg (rs.map f) key := by
  obtain ⟨⟨r0, hr0m, hr0k⟩, hall⟩ := h
  have h0 := hall r0 hr0m hr0k
  constructor
  · exact ⟨r0, (hfix r0 hr0k h0.1 h0.2) ▸ List.mem_map_of_mem f hr0m, hr0k⟩
  · intro r' hr' hk'
    rcases List.mem_map.mp hr' with ⟨r, hrm, hfr⟩
    have hrk : r.key = key := by rw [← hk', ← hfr, hkey r]
    have h1 := hall r hrm hrk
    rw [← hfr, hfix r hrk h1.1 h1.2]
    exact h1

theorem permUnavail_cons {cfg : Config} {key : TileKey} {rs : TileStore}
    {x : TileRecord} (hx : x.key ≠ key)
    (h : permUnavailKey cfg rs key) : permUnavailKey cfg (x :: rs) key := by
  obtain ⟨⟨r0, hr0m, hr0k⟩, hall⟩ := h
  refine ⟨⟨r0, List.mem_cons_of_mem x hr0m, hr0k⟩, ?_⟩
  intro r hr hk
  rcases List.mem_cons.mp hr with h1 | h1
  · exact absurd (h1 ▸ hk) hx
  · exact hall r h1 hk

theorem permUnavail_not_ready {cfg : Config} {rs : TileStore} {key : TileKey}
    (h : permUnavailKey cfg rs key) : isReady rs key = false := by
  unfold isReady
  cases hl : lookup rs key with
  | none => rfl
  | some r =>
    obtain ⟨hm, hk⟩ := lookup_some_mem hl
    have := (h.2 r hm hk).1
    simp [this]

theorem permUnavail_lookup_ne_none {cfg : Config} {rs : TileStore} {key : TileKey}
    (h : permUnavailKey cfg rs key) : lookup rs key ≠ none := by
  intro hn
  obtain ⟨r0, hm, hk⟩ := h.1
  exact (lookup_eq_none_iff.mp hn r0 hm) hk

theorem permUnavail_touch {cfg : Config} {rs : TileStore} {key : TileKey}
    (k : TileKey) (frame : Nat) (h : permUnavailKey cfg rs key) :
    permUnavailKey cfg (touch rs k frame) key := by
  apply permUnavail_map rs _ ?_ ?_ h
  · intro r
    by_cases hc : r.key = k ∧ r.state = TState.Ready <;> simp [hc]
  · intro r _ hfail _
    have hc : ¬(r.key = k ∧ r.state = TState.Ready) := fun hc => by
      rw [hfail] at hc
      exact absurd hc.2 (by simp)
    simp [hc]

theorem permUnavail_setLoading {cfg : Config} {rs : TileStore} {key k : TileKey}
    {frame : Nat} (hk : k ≠ key) (h : permUnavailKey cfg rs key) :
    permUnavailKey cfg (setLoading rs k frame) key := by
  apply permUnavail_map rs _ ?_ ?_ h
  · intro r
    by_cases hc : r.key = k <;> simp [hc]
  · intro r hrk _ _
    have hc : ¬(r.key = k) := fun hc => hk (hc ▸ hrk)
    simp [hc]

theorem permUnavail_complete {cfg : Config} {rs : TileStore} {key : TileKey}
    (k : TileKey) (res : CompletionResult) (h : permUnavailKey cfg rs key) :
    permUnavailKey cfg (complete rs k res) key := by
  apply permUnavail_map rs _ ?_ ?_ h
  · intro r
    by_cases hc : r.key = k ∧ r.state = TState.Loading
    · cases res <;> simp [hc]
    · simp [hc]
  · intro r _ hfail _
    have hc : ¬(r.key = k ∧ r.state = TState.Loading) := fun hc => by
      rw [hfail] at hc
      exact absurd hc.2 (by simp)
    simp [hc]

theorem permUnavail_evict {cfg : Config} {rs : TileStore} {key : TileKey}
    (budget : Nat) (prot : List TileKey) (h : permUnavailKey cfg rs key) :
    permUnavailKey cfg (evictToBudget budget prot rs) key := by
  obtain ⟨⟨r0, hm, hk⟩, hall⟩ := h
  have hfail := (hall r0 hm hk).1
  constructor
  · refine ⟨r0, ?_, hk⟩
    exact evictLoop_keeps_not_ready budget prot rs.length rs r0 hm (by simp [hfail])
  · intro r hr hk'
    exact hall r (evictLoop_subset budget prot rs.length rs r hr) hk'

theorem processKey_eq_ready {cfg : Config} {frame : Nat}
    {acc : TileStore × List TileKey} {k : TileKey}
    (hready : isReady acc.1 k = true) :
    processKey cfg frame acc k = (touch acc.1 k frame, acc.2) := by
  unfold processKey
  rw [if_pos hready]

theorem processKey_eq_absent {cfg : Config} {frame : Nat}
    {acc : TileStore × List TileKey} {k : TileKey}
    (hready : ¬isReady acc.1 k = true) (hl : lookup acc.1 k = none) :
    processKey cfg frame acc k = (newRecord k frame :: acc.1, acc.2 ++ [k]) := by
  unfold processKey
  rw [if_neg hready, hl]

theorem processKey_eq_retry {cfg : Config} {frame : Nat}
    {acc : TileStore × List TileKey} {k : TileKey} {r : TileRecord}
    (hready : ¬isReady acc.1 k = true) (hl : lookup acc.1 k = some r)
    (hcond : r.state = TState.Failed ∧ r.retryCount ≤ cfg.maxRetryCount
      ∧ retryDue cfg frame r = true) :
    processKey cfg frame acc k = (setLoading acc.1 k frame, acc.2 ++ [k]) := by
  unfold processKey
  rw [if_neg hready, hl]
  exact if_pos hcond

theorem processKey_eq_skip {cfg : Config} {frame : Nat}
    {acc : TileStore × List TileKey} {k : TileKey} {r : TileRecord}
    (hready : ¬isReady acc.1 k = true) (hl : lookup acc.1 k = some r)
    (hcond : ¬(r.state = TState.Failed ∧ r.retryCount ≤ cfg.maxRetryCount
      ∧ retryDue cfg frame r = true)) :
    processKey cfg frame acc k = (acc.1, acc.2) := by
  unfold processKey
  rw [if_neg hready, hl]
  exact if_neg hcond

theorem processKey_permUnavail {cfg : Config} {key : TileKey} (frame : Nat)
    (acc : TileStore × List TileKey) (k : TileKey)
    (h : permUnavailKey cfg acc.1 key) (hsub : key ∉ acc.2) :
    permUnavailKey cfg (processKey cfg frame acc k).1 key ∧
    key ∉ (processKey cfg frame acc k).2 := by
  by_cases hready : isReady acc.1 k = true
  · rw [processKey_eq_ready hready]
    exact ⟨permUnavail_touch k frame h, hsub⟩
  · cases hl : lookup acc.1 k with
    | none =>
      have hkne : k ≠ key := by
        intro he
        subst he
        exact permUnavail_lookup_ne_none h hl
      rw [processKey_eq_absent hready hl]
      constructor
      · exact permUnavail_cons (by simp [newRecord, hkne]) h
      · intro hmem
        rcases List.mem_append.mp hmem with hm | hm
        · exact hsub hm
        · exact hkne (List.mem_singleton.mp hm).symm
    | some r =>
      by_cases hcond : r.state = TState.Failed ∧ r.retryCount ≤ cfg.maxRetryCount
          ∧ retryDue cfg frame r = true
      · have hkne : k ≠ key := by
          intro he
          subst he
          obtain ⟨hm, hkk⟩ := lookup_some_mem hl
          have h1 := hcond.2.1
          have h2 := (h.2 r hm hkk).2
          omega
        rw [processKey_eq_retry hready hl hcond]
        constructor
        · exact permUnavail_setLoading hkne h
        · intro hmem
          rcases List.mem_append.mp hmem with hm | hm
          · exact hsub hm
          · exact hkne (List.mem_singleton.mp hm).symm
      · rw [processKey_eq_skip hready hl hcond]
        exact ⟨h, hsub⟩

theorem foldl_processKey_permUnavail {cfg : Config} {key : TileKey} (frame : Nat) :
    ∀ (ds : List TileKey) (acc : TileStore × List TileKey),
      permUnavailKey cfg acc.1 key → key ∉ acc.2 →
      permUnavailKey cfg (ds.foldl (processKey cfg frame) acc).1 key ∧
      key ∉ (ds.foldl (processKey cfg frame) acc).2 := by
  intro ds
  induction ds with
  | nil =>
    intro acc h hs
    exact ⟨h, hs⟩
  | cons d ds ih =>
    intro acc h hs
    simp only [List.foldl_cons]
    obtain ⟨h', hs'⟩ := processKey_permUnavail frame acc d h hs
    exact ih _ h' hs'

theorem scheduleFrame_props {cfg : Config} {key : TileKey} (cam : Camera)
    (frame : Nat) (rs : TileStore) (h : permUnavailKey cfg rs key) :
    permUnavailKey cfg (scheduleFrame cfg cam frame rs).storeMid key ∧
    key ∉ (scheduleFrame cfg cam frame rs).submissions ∧
    permUnavailKey cfg (scheduleFrame cfg cam frame rs).storeAfter key ∧
    (scheduleFrame cfg cam frame rs).renderKeys =
      renderListOf (scheduleFrame cfg cam frame rs).storeMid
        (scheduleFrame cfg cam frame rs).desired := by
  obtain ⟨h1, h2⟩ := foldl_processKey_permUnavail frame
    (lodSelect cfg cam (unavailOf cfg rs)).1 (rs, []) h (by simp)
  exact ⟨h1, h2, permUnavail_evict _ _ h1, rfl⟩

theorem renderListOf_substitutes {rs : TileStore} {desired : List TileKey}
    {key a : TileKey} (hD : key ∈ desired) (hnr : isReady rs key = false)
    (ha : nearestReadyAncestor rs key = some a) :
    a ∈ renderListOf rs desired := by
  unfold renderListOf
  refine List.mem_filterMap.mpr ⟨key, hD, ?_⟩
  rw [if_neg (by simp [hnr])]
  exact ha

/-- C7: once a key is permanently unavailable (a Failed record past the
retry cap), every subsequent frame of the session never submits a load for
it, and whenever it is desired its nearest Ready ancestor (when one
exists) is substituted into the render list. -/
theorem permanently_failed_never_resubmitted (cfg : Config) (rs : TileStore)
    (key : TileKey) (fr : Nat) (events : List SessionEvent)
    (h : permUnavailKey cfg rs key) :
    ∀ out ∈ (runSession cfg rs fr events).2,
      key ∉ out.submissions ∧
      ∀ a : TileKey, key ∈ out.desired →
        nearestReadyAncestor out.storeMid key = some a → a ∈ out.renderKeys := by
  induction events generalizing rs fr with
  | nil =>
    intro out hout
    simp [runSession] at hout
  | cons e evs ih =>
    intro out hout
    cases e with
    | frameEvent cam =>
      simp only [runSession] at hout
      rcases List.mem_cons.mp hout with he | hrest
      · subst he
        obtain ⟨hmid, hsub, _, hrender⟩ := scheduleFrame_props cam fr rs h
        refine ⟨hsub, ?_⟩
        intro a hD ha
        rw [hrender]
        exact renderListOf_substitutes hD (permUnavail_not_ready hmid) ha
      · exact ih (scheduleFrame cfg cam fr rs).storeAfter (fr + 1)
          (scheduleFrame_props cam fr rs h).2.2.1 out hrest
    | completionEvent k res =>
      simp only [runSession] at hout
      exact ih (complete rs k res) fr (permUnavail_complete k res h) out hout

/-- C7 witness: a concrete session in which the tile (level 5, row 3,
col 7) has failed 4 times with retry cap 3; during the following frame it
is never resubmitted and its Ready level-4 ancestor is substituted. -/
theorem permanently_failed_never_resubmitted_witness :
    permUnavailKey ⟨1000000, 1, 6, 3, 1, 4⟩
      [⟨⟨5, 3, 7⟩, TState.Failed, none, 0, 0, 4⟩,
       ⟨⟨4, 1, 3⟩, TState.Ready, some 100, 0, 100, 0⟩] ⟨5, 3, 7⟩ ∧
    (∀ out ∈ (runSession ⟨1000000, 1, 6, 3, 1, 4⟩
        [⟨⟨5, 3, 7⟩, TState.Failed, none, 0, 0, 4⟩,
         ⟨⟨4, 1, 3⟩, TState.Ready, some 100, 0, 100, 0⟩] 0
        [SessionEvent.frameEvent ⟨⟨-180, 180, -90, 90⟩, 2⟩]).2,
      (⟨5, 3, 7⟩ : TileKey) ∉ out.submissions ∧
      ∀ a : TileKey, (⟨5, 3, 7⟩ : TileKey) ∈ out.desired →
        nearestReadyAncestor out.storeMid ⟨5, 3, 7⟩ = some a →
          a ∈ out.renderKeys) :=
  ⟨by decide, permanently_failed_never_resubmitted _ _ _ _ _ (by decide)⟩

end EarthMap
